import Mathlib

/-!
Shallow embedding of the turn-orchestration core of the Zep-agent repository
(`src/agent.py`): the chunker, short-history trimming, thread-id derivation,
the message-assembly and error-handling structure of `handle_user_turn`, the
background-task registry, and a small mutable-store model for the frame
property of the short-history list.
-/

namespace ZepAgent

/-- A chat message dictionary with keys `role` and `content`
(`{"role": ..., "content": ...}` in `agent.py`). -/
structure Msg where
  role : String
  content : String
deriving DecidableEq, Repr

/-- Whitespace word-splitter: `acc` holds the (reversed) characters of the
word currently being read. Runs of whitespace separate words; leading and
trailing whitespace produce no words. -/
def splitWordsAux : List Char → List Char → List String
  | [], [] => []
  | [], acc => [String.mk acc.reverse]
  | c :: cs, acc =>
    if c.isWhitespace then
      (if acc = [] then [] else [String.mk acc.reverse]) ++ splitWordsAux cs []
    else
      splitWordsAux cs (c :: acc)

/-- Python `text.strip().split()`: the whitespace-separated words of `text`,
with no empty pieces (src/agent.py line 274). -/
def pySplit (text : String) : List String :=
  splitWordsAux text.toList []

/-- One iteration of the `while i < n` loop of `chunk_text_simple`
(src/agent.py lines 280-287), restricted to the start-index bookkeeping:
given word count `n`, parameters `mw`/`ov` and current start index `i`,
returns `some i'` with the next start index when the iteration neither
exits the loop (`i < n` false) nor breaks (`end == n`), and `none` when
the loop stops at this iteration. -/
def chunkStepIndex (n mw ov i : Nat) : Option Nat :=
  if i < n then
    let e := min (i + mw) n
    if e = n then none else some (max (e - ov) e)
  else none

/-- The `while` loop of `chunk_text_simple` (src/agent.py lines 280-287),
with explicit fuel counting loop iterations; `none` means the loop did not
finish within `fuel` iterations. `words[i:end]` is `(words.drop i).take (end - i)`
and `i = max(end - overlap, end)` is `max (e - ov) e`. -/
def chunkLoop (words : List String) (mw ov : Nat) : Nat → Nat → Option (List String)
  | 0, i => if i < words.length then none else some []
  | fuel + 1, i =>
    if i < words.length then
      let e := min (i + mw) words.length
      let chunk := " ".intercalate ((words.drop i).take (e - i))
      if e = words.length then
        some [chunk]
      else
        (chunkLoop words mw ov fuel (max (e - ov) e)).map (fun rest => chunk :: rest)
    else
      some []

/-- `chunk_text_simple(text, max_words, overlap)` (src/agent.py lines 269-287).
The fuel `words.length + 1` is ample for every terminating run of the Python
loop (the start index strictly increases while `max_words ≥ 1`); the value
`none` models a run of the Python loop that does not terminate. -/
def chunk_text_simple (text : String) (mw : Nat := 200) (ov : Nat := 30) :
    Option (List String) :=
  let words := pySplit text
  if words = [] then some []
  else chunkLoop words mw ov (words.length + 1) 0

/-- Reference splitter: cuts a word list into consecutive, non-overlapping
blocks of `m + 1` words (the last block possibly shorter). Used to describe
what `chunk_text_simple` actually computes. -/
def splitChunks (m : Nat) : List String → List (List String)
  | [] => []
  | w :: ws => (w :: ws.take m) :: splitChunks m (ws.drop m)
termination_by l => l.length
decreasing_by simp; omega

/-- Ceiling division `ceil(a / b)` on naturals. -/
def ceilDiv (a b : Nat) : Nat := (a + b - 1) / b

/-- Python `l[-k:]` on a list of length greater than `k` would be the last `k`
entries; with `k = 0`, `l[-0:]` is `l[0:]`, the whole list. This models the
slice for any `l` and `k`. -/
def pyTail (l : List Msg) (k : Nat) : List Msg :=
  if k = 0 then l else l.drop (l.length - k)

/-- Model of `trim_short_history(history, max_len)` (src/agent.py lines 45-46):
`history if len(history) <= max_len else history[-max_len:]`. -/
def trim_short_history (history : List Msg) (maxLen : Nat := 6) : List Msg :=
  if history.length ≤ maxLen then history else pyTail history maxLen

/-- Model of `stable_thread_id(user_id, session_id)` (src/agent.py lines 39-43);
`sha1hex` abstracts `hashlib.sha1(user_id.encode("utf-8")).hexdigest()`, an
external library function. A non-empty `session_id` is truthy in Python. -/
def stable_thread_id (sha1hex : String → String) (user_id session_id : String) : String :=
  if session_id ≠ "" then session_id
  else user_id ++ "-" ++ (sha1hex user_id).take 8

/-- Exceptions, identified by their message. -/
abbrev Exn := String

/-- Oracle for the external effects of one call to `handle_user_turn`:
whether the Zep client and the `ZepMessage` class are available, and the
results of the external calls the turn makes. `Except.error` models the
call raising. -/
structure TurnEnv where
  zepPresent : Bool
  zepMessagePresent : Bool
  addMessages : Except Exn Unit
  rawContext : Except Exn (Option String)
  completion : List Msg → Except Exn String
  schedule : Except Exn Unit

/-- Model of `build_system_prompt()` (src/agent.py lines 48-55). -/
def build_system_prompt : Msg :=
  Msg.mk "system"
    ("You are a helpful assistant. Use the user-provided Zep memory context and short-term " ++
     "chat history to answer precisely. If the memory contains facts, prefer those as ground truth.")

/-- Model of `_zep_get_user_context_sync` (src/agent.py lines 95-101): returns
`""` when the client is absent; otherwise propagates an exception from the
SDK call, and coalesces a missing or `None` context attribute to `""`
(`getattr(mem, "context", "") or ""`). -/
def zep_get_user_context_sync (clientPresent : Bool) (raw : Except Exn (Option String)) :
    Except Exn String :=
  if clientPresent = false then Except.ok ""
  else raw.map (fun o => o.getD "")

/-- Model of `get_zep_context` (src/agent.py lines 189-199): `""` when the
client is absent, and any exception from the fetch is caught (a warning is
printed) and replaced by `""`. -/
def get_zep_context (clientPresent : Bool) (raw : Except Exn (Option String)) :
    Except Exn String :=
  if clientPresent = false then Except.ok ""
  else
    match zep_get_user_context_sync clientPresent raw with
    | Except.ok s => Except.ok s
    | Except.error _ => Except.ok ""

/-- Model of `add_user_message` (src/agent.py lines 213-223): no-op when the
client or the `ZepMessage` class is absent; any exception from the add is
caught and only logged. -/
def add_user_message (env : TurnEnv) : Except Exn Unit :=
  if !env.zepPresent || !env.zepMessagePresent then Except.ok ()
  else
    match env.addMessages with
    | Except.ok _ => Except.ok ()
    | Except.error _ => Except.ok ()

/-- Model of `add_assistant_message_background` (src/agent.py lines 225-232):
no-op when the client or `ZepMessage` is absent; any exception from
scheduling is caught and only logged (and `schedule_zep_add_messages` itself
also swallows failures of the fallback synchronous write). -/
def add_assistant_message_background (env : TurnEnv) : Except Exn Unit :=
  if !env.zepPresent || !env.zepMessagePresent then Except.ok ()
  else
    match env.schedule with
    | Except.ok _ => Except.ok ()
    | Except.error _ => Except.ok ()

/-- The fixed apology returned when the completion call raises
(src/agent.py line 261). -/
def apologyText : String := "Sorry — I couldn\x27t get a response from the model."

/-- The message-assembly step of `handle_user_turn` (src/agent.py lines
245-254): system prompt, then the memory context as a second system message
when the context block is truthy (non-empty), then the short history when
truthy (non-empty), then the new user message. -/
def assemble (context_block : String) (short_history : List Msg) (user_text : String) :
    List Msg :=
  let messages : List Msg := []
  let messages := messages ++ [build_system_prompt]
  let messages :=
    if context_block = "" then messages
    else messages ++ [Msg.mk "system" ("[ZEP MEMORY]\n" ++ context_block)]
  let messages := if short_history = [] then messages else messages ++ short_history
  messages ++ [Msg.mk "user" user_text]

/-- The context block a turn runs with: the (never-failing) result of
`get_zep_context` on the turn's environment. -/
def turnContext (env : TurnEnv) : String :=
  (get_zep_context env.zepPresent env.rawContext).toOption.getD ""

/-- Model of `handle_user_turn` (src/agent.py lines 234-266): add the user
message, fetch the context block, assemble the messages, call the model
(substituting the apology if the call raises), schedule background
persistence, return the assistant text. An `Except.error` result would model
an exception propagating to the caller. -/
def handle_user_turn (env : TurnEnv) (_thread_id _user_id : String) (user_text : String)
    (short_history : List Msg) : Except Exn String :=
  match add_user_message env with
  | Except.error e => Except.error e
  | Except.ok _ =>
    match get_zep_context env.zepPresent env.rawContext with
    | Except.error e => Except.error e
    | Except.ok context_block =>
      let messages := assemble context_block short_history user_text
      let assistant_text :=
        match env.completion messages with
        | Except.ok s => s
        | Except.error _ => apologyText
      match add_assistant_message_background env with
      | Except.error e => Except.error e
      | Except.ok _ => Except.ok assistant_text

/-- A concrete stand-in hash function, used to instantiate theorems that are
parametric in the SHA1 hex digest. -/
def sha1hexConst : String → String := fun _ => "0123456789abcdef0123456789abcdef01234567"

/-- A concrete turn environment whose completion call always raises. -/
def envFail : TurnEnv where
  zepPresent := true
  zepMessagePresent := true
  addMessages := Except.ok ()
  rawContext := Except.ok (some "ctx")
  completion := fun _ => Except.error "boom"
  schedule := Except.ok ()

/-- The process-wide `__bg_tasks` set (src/agent.py line 36); task handles
are modelled as naturals. -/
abbrev TaskSet := Finset Nat

/-- `__bg_tasks.add(t)` at schedule time (src/agent.py line 161). -/
def scheduleTask (s : TaskSet) (t : Nat) : TaskSet := insert t s

/-- The done callback `_on_done`: `__bg_tasks.discard(tt)` (src/agent.py
lines 162-163); it runs once the task completes, whatever its outcome. -/
def completeTask (s : TaskSet) (t : Nat) : TaskSet := s.erase t

/-- The `_bg` coroutine body (src/agent.py lines 153-157): awaits the write
and swallows any exception, so the task always finishes normally. -/
def bgResult (write : Except Exn Unit) : Except Exn Unit :=
  match write with
  | Except.ok _ => Except.ok ()
  | Except.error _ => Except.ok ()

/-- References into the store of mutable Python list objects. -/
abbrev Ref := Nat

/-- A store of mutable list-of-message objects; `Ref` `i` denotes the `i`-th
cell. -/
abbrev Store := List (List Msg)

/-- Read the list object a reference denotes. -/
def readRef (σ : Store) (r : Ref) : List Msg := (σ[r]?).getD []

/-- Overwrite the list object a reference denotes. -/
def writeRef (σ : Store) (r : Ref) (v : List Msg) : Store := σ.set r v

/-- Allocate a fresh list object holding `v`; returns the new store and the
fresh reference. -/
def allocRef (σ : Store) (v : List Msg) : Store × Ref := (σ ++ [v], σ.length)

/-- `list.append(x)` on the object at `r`. -/
def appendRef (σ : Store) (r : Ref) (x : Msg) : Store := writeRef σ r (readRef σ r ++ [x])

/-- `list.extend(xs)` on the object at `r`. -/
def extendRef (σ : Store) (r : Ref) (xs : List Msg) : Store := writeRef σ r (readRef σ r ++ xs)

/-- `trim_short_history` at the store level: it returns the very same object
when `len(history) <= max_len` and otherwise allocates a fresh object for the
slice `history[-max_len:]`; it writes to no object. -/
def trimRef (σ : Store) (r : Ref) (maxLen : Nat) : Store × Ref :=
  if (readRef σ r).length ≤ maxLen then (σ, r)
  else allocRef σ (pyTail (readRef σ r) maxLen)

/-- The message assembly of `handle_user_turn` (src/agent.py lines 245-254)
at the store level: `messages` is freshly allocated (line 245), each
`append`/`extend` writes only to it, and the short history at `r` is only
read (line 252). -/
def assembleRef (σ : Store) (context_block : String) (r : Ref) (user_text : String) :
    Store × Ref :=
  let alloc := allocRef σ []
  let σ1 := alloc.1
  let rm := alloc.2
  let σ2 := appendRef σ1 rm build_system_prompt
  let σ3 :=
    if context_block = "" then σ2
    else appendRef σ2 rm (Msg.mk "system" ("[ZEP MEMORY]\n" ++ context_block))
  let σ4 := if readRef σ3 r = [] then σ3 else extendRef σ3 rm (readRef σ3 r)
  (appendRef σ4 rm (Msg.mk "user" user_text), rm)

end ZepAgent

namespace ZepAgent

theorem splitChunks_nil (m : Nat) : splitChunks m [] = [] := by
  rw [splitChunks]

theorem splitChunks_cons (m : Nat) (w : String) (ws : List String) :
    splitChunks m (w :: ws) = (w :: ws.take m) :: splitChunks m (ws.drop m) := by
  rw [splitChunks]

theorem splitChunks_join (m : Nat) : ∀ l : List String, (splitChunks m l).flatten = l
  | [] => by rw [splitChunks_nil]; rfl
  | w :: ws => by
    rw [splitChunks_cons, List.flatten_cons, splitChunks_join m (ws.drop m)]
    simp
termination_by l => l.length
decreasing_by simp; omega

theorem splitChunks_eq_nil_iff (m : Nat) (l : List String) :
    splitChunks m l = [] ↔ l = [] := by
  cases l with
  | nil => simp [splitChunks_nil]
  | cons w ws => rw [splitChunks_cons]; simp

theorem splitChunks_mem (m : Nat) :
    ∀ l : List String, ∀ c ∈ splitChunks m l, c.length ≤ m + 1 ∧ c ≠ []
  | [] => by rw [splitChunks_nil]; intro c hc; cases hc
  | w :: ws => by
    rw [splitChunks_cons]
    intro c hc
    rw [List.mem_cons] at hc
    rcases hc with hc | hc
    · subst hc
      refine ⟨?_, by simp⟩
      simp only [List.length_cons, List.length_take]
      omega
    · exact splitChunks_mem m (ws.drop m) c hc
termination_by l => l.length
decreasing_by simp; omega

theorem splitChunks_dropLast (m : Nat) :
    ∀ l : List String, ∀ c ∈ (splitChunks m l).dropLast, c.length = m + 1
  | [] => by rw [splitChunks_nil]; intro c hc; cases hc
  | w :: ws => by
    rw [splitChunks_cons]
    rcases h : splitChunks m (ws.drop m) with _ | ⟨r, rs⟩
    · intro c hc; cases hc
    · intro c hc
      rw [List.dropLast_cons₂, List.mem_cons] at hc
      rcases hc with hc | hc
      · have hne : ws.drop m ≠ [] := by
          intro hnil
          rw [hnil, splitChunks_nil] at h
          cases h
        have hlen : m < ws.length := by
          by_contra hle
          exact hne (List.drop_eq_nil_of_le (by omega))
        subst hc
        simp only [List.length_cons, List.length_take]
        omega
      · rw [← h] at hc
        exact splitChunks_dropLast m (ws.drop m) c hc
termination_by l => l.length
decreasing_by simp; omega

theorem chunkLoop_eq (words : List String) (mw ov : Nat) (hmw : 1 ≤ mw) :
    ∀ fuel i, words.length - i ≤ fuel * mw →
      chunkLoop words mw ov fuel i =
        some (((splitChunks (mw - 1) (words.drop i)).map
          (fun c => " ".intercalate c))) := by
  intro fuel
  induction fuel with
  | zero =>
    intro i h
    have hle : words.length ≤ i := by omega
    rw [List.drop_eq_nil_of_le hle, splitChunks_nil]
    simp [chunkLoop]
    omega
  | succ f ih =>
    intro i h
    by_cases hi : i < words.length
    · have hdropne : words.drop i ≠ [] := by
        intro hnil
        have := List.drop_eq_nil_iff.mp hnil
        omega
      obtain ⟨w, ws, hws⟩ := List.exists_cons_of_ne_nil hdropne
      have hlws : ws.length + 1 = words.length - i := by
        have := congrArg List.length hws
        simp only [List.length_drop, List.length_cons] at this
        omega
      by_cases hb : words.length ≤ i + mw
      · have he : min (i + mw) words.length = words.length := Nat.min_eq_right hb
        simp only [chunkLoop, hi, if_true, he, ite_true]
        rw [hws]
        have htk : List.take (words.length - i) (w :: ws) = w :: ws := by
          apply List.take_of_length_le
          simp only [List.length_cons]
          omega
        rw [htk, splitChunks_cons]
        have htake : ws.take (mw - 1) = ws := by
          apply List.take_of_length_le
          omega
        have hdrop : ws.drop (mw - 1) = [] := by
          apply List.drop_eq_nil_of_le
          omega
        rw [htake, hdrop, splitChunks_nil]
        rfl
      · have hlt : i + mw < words.length := by omega
        have he : min (i + mw) words.length = i + mw := Nat.min_eq_left (by omega)
        have hne : ¬ (i + mw = words.length) := by omega
        simp only [chunkLoop, hi, if_true, he, hne, ite_false]
        have hmax : max (i + mw - ov) (i + mw) = i + mw :=
          Nat.max_eq_right (Nat.sub_le _ _)
        have hstep : (f + 1) * mw = f * mw + mw := by ring
        rw [hmax, ih (i + mw) (by omega)]
        have harith : i + mw - i = mw := by omega
        rw [harith, hws, splitChunks_cons]
        have ht2 : List.take mw (w :: ws) = w :: ws.take (mw - 1) := by
          have hmw1 : mw = (mw - 1) + 1 := by omega
          rw [hmw1]
          rfl
        have hd2 : ws.drop (mw - 1) = words.drop (i + mw) := by
          have hstep2 : ws.drop (mw - 1) = (w :: ws).drop mw := by
            have hmw1 : mw = (mw - 1) + 1 := by omega
            rw [hmw1]
            rfl
          rw [hstep2, ← hws, List.drop_drop]
        rw [ht2, hd2]
        rfl
    · simp only [chunkLoop, hi, if_false]
      have hle : words.length ≤ i := by omega
      rw [List.drop_eq_nil_of_le hle, splitChunks_nil]
      rfl

theorem chunk_text_simple_eq (text : String) (mw ov : Nat) (hmw : 1 ≤ mw) :
    chunk_text_simple text mw ov =
      some ((splitChunks (mw - 1) (pySplit text)).map (fun c => " ".intercalate c)) := by
  unfold chunk_text_simple
  by_cases hw : pySplit text = []
  · rw [hw]
    simp [splitChunks_nil]
  · simp only [hw, if_false]
    rw [chunkLoop_eq (pySplit text) mw ov hmw ((pySplit text).length + 1) 0]
    · rw [List.drop_zero]
    · have hmul : ((pySplit text).length + 1) * 1 ≤ ((pySplit text).length + 1) * mw :=
        Nat.mul_le_mul_left _ hmw
      omega

theorem le_ceilDiv_mul (a b : Nat) (hb : 1 ≤ b) : a ≤ ceilDiv a b * b := by
  unfold ceilDiv
  rw [Nat.mul_comm]
  have h1 := Nat.div_add_mod (a + b - 1) b
  have h2 : (a + b - 1) % b < b := Nat.mod_lt _ (by omega)
  generalize hm : b * ((a + b - 1) / b) = m at h1 ⊢
  omega

theorem chunkLoop_iter_bound (words : List String) (mw ov : Nat) (hmw : 1 ≤ mw) :
    (chunkLoop words mw ov (ceilDiv words.length (max 1 (mw - ov))) 0).isSome := by
  have hk : 1 ≤ max 1 (mw - ov) := Nat.le_max_left _ _
  have hkm : max 1 (mw - ov) ≤ mw := by
    have : mw - ov ≤ mw := Nat.sub_le _ _
    omega
  have h1 : words.length ≤ ceilDiv words.length (max 1 (mw - ov)) * (max 1 (mw - ov)) :=
    le_ceilDiv_mul _ _ hk
  have h2 : ceilDiv words.length (max 1 (mw - ov)) * (max 1 (mw - ov)) ≤
      ceilDiv words.length (max 1 (mw - ov)) * mw :=
    Nat.mul_le_mul_left _ hkm
  rw [chunkLoop_eq words mw ov hmw _ 0 (by omega)]
  rfl

theorem chunkStepIndex_progress (n mw ov : Nat) (hmw : 1 ≤ mw) (i j : Nat)
    (h : chunkStepIndex n mw ov i = some j) : i < j := by
  unfold chunkStepIndex at h
  by_cases hi : i < n
  · simp only [hi, if_true] at h
    by_cases he : min (i + mw) n = n
    · simp [he] at h
    · simp only [he, ite_false, Option.some.injEq] at h
      have hlt : i < min (i + mw) n := by
        have h1 : i < i + mw := by omega
        have h2 : i < n := hi
        omega
      have : min (i + mw) n ≤ j := by
        rw [← h]
        exact Nat.le_max_right _ _
      omega
  · simp [hi] at h

theorem add_user_message_eq_ok (env : TurnEnv) : add_user_message env = Except.ok () := by
  obtain ⟨zp, zm, am, rc, comp, sch⟩ := env
  unfold add_user_message
  cases zp <;> cases zm <;> cases am <;> rfl

theorem add_assistant_message_background_eq_ok (env : TurnEnv) :
    add_assistant_message_background env = Except.ok () := by
  obtain ⟨zp, zm, am, rc, comp, sch⟩ := env
  unfold add_assistant_message_background
  cases zp <;> cases zm <;> cases sch <;> rfl

theorem get_zep_context_eq (b : Bool) (raw : Except Exn (Option String)) :
    get_zep_context b raw = Except.ok ((get_zep_context b raw).toOption.getD "") := by
  cases b <;> cases raw <;> rfl

theorem handle_user_turn_eq (env : TurnEnv) (tid uid ut : String) (hist : List Msg) :
    handle_user_turn env tid uid ut hist =
      Except.ok (match env.completion (assemble (turnContext env) hist ut) with
        | Except.ok s => s
        | Except.error _ => apologyText) := by
  obtain ⟨zp, zm, am, rc, comp, sch⟩ := env
  unfold handle_user_turn turnContext add_user_message add_assistant_message_background
    get_zep_context zep_get_user_context_sync
  cases zp <;> cases zm <;> cases am <;> cases rc <;> cases sch <;> rfl

theorem readRef_append (σ : Store) (v : List Msg) (r : Ref) (h : r < σ.length) :
    readRef (σ ++ [v]) r = readRef σ r := by
  unfold readRef
  rw [List.getElem?_append, if_pos h]

theorem readRef_alloc (σ : Store) (v : List Msg) : readRef (σ ++ [v]) σ.length = v := by
  unfold readRef
  rw [List.getElem?_append, if_neg (Nat.lt_irrefl _), Nat.sub_self]
  rfl

theorem set_append_singleton (σ : Store) (w v : List Msg) :
    (σ ++ [w]).set σ.length v = σ ++ [v] := by
  induction σ with
  | nil => rfl
  | cons a σ ih => simp [ih]

theorem appendRef_alloc (σ : Store) (x : List Msg) (y : Msg) :
    appendRef (σ ++ [x]) σ.length y = σ ++ [x ++ [y]] := by
  unfold appendRef writeRef
  rw [readRef_alloc, set_append_singleton]

theorem extendRef_alloc (σ : Store) (x ys : List Msg) :
    extendRef (σ ++ [x]) σ.length ys = σ ++ [x ++ ys] := by
  unfold extendRef writeRef
  rw [readRef_alloc, set_append_singleton]

theorem assembleRef_eq (σ : Store) (cb : String) (r : Ref) (ut : String)
    (hr : r < σ.length) :
    (assembleRef σ cb r ut).1 = σ ++ [assemble cb (readRef σ r) ut] ∧
    (assembleRef σ cb r ut).2 = σ.length := by
  refine ⟨?_, rfl⟩
  unfold assembleRef allocRef assemble
  by_cases hcb : cb = ""
  · simp only [hcb, eq_self_iff_true, if_true, ite_true, appendRef_alloc,
      readRef_append _ _ _ hr]
    by_cases hsh : readRef σ r = []
    · simp only [hsh, eq_self_iff_true, if_true, ite_true, appendRef_alloc]
    · simp only [if_neg hsh, extendRef_alloc, appendRef_alloc]
  · simp only [if_neg hcb, appendRef_alloc, readRef_append _ _ _ hr]
    by_cases hsh : readRef σ r = []
    · simp only [hsh, eq_self_iff_true, if_true, ite_true, appendRef_alloc]
    · simp only [if_neg hsh, extendRef_alloc, appendRef_alloc]

theorem foldl_scheduleTask (ts : List Nat) : ∀ s : TaskSet,
    List.foldl scheduleTask s ts = s ∪ ts.toFinset := by
  induction ts with
  | nil => intro s; simp
  | cons a l ih =>
    intro s
    rw [List.foldl_cons, ih]
    ext x
    simp [scheduleTask, List.toFinset_cons]

theorem foldl_completeTask (ts : List Nat) : ∀ s : TaskSet,
    List.foldl completeTask s ts = s \ ts.toFinset := by
  induction ts with
  | nil => intro s; simp
  | cons a l ih =>
    intro s
    rw [List.foldl_cons, ih]
    ext x
    simp [completeTask, List.toFinset_cons]
    tauto

/-- C1: the claim states that consecutive chunks of
`chunk_text_simple(text, max_words, overlap)` overlap by `overlap` words.
The code computes `i = max(end - overlap, end)`, which always equals `end`,
so chunks never overlap: on `"a b c"` with `max_words = 2`, `overlap = 1`
the result is `["a b", "c"]`, not the overlapping `["a b", "b c"]` the claim
requires (the second window would start at `end - overlap = 1`). -/
theorem chunk_text_simple_no_overlap :
    chunk_text_simple "a b c" 2 1 = some ["a b", "c"] ∧
    some ["a b", "c"] ≠ some ["a b", "b c"] :=
  ⟨rfl, by decide⟩

/-- C2 counterexample: with bound `N = 0` and a one-entry history,
`trim_short_history` returns the whole history (Python `history[-0:]` is
`history[0:]`), so its length is `1`, not `min 1 0 = 0` as the claim states. -/
theorem trim_short_history_zero_cex :
    trim_short_history [Msg.mk "user" "hi"] 0 = [Msg.mk "user" "hi"] ∧
    (trim_short_history [Msg.mk "user" "hi"] 0).length ≠
      min [Msg.mk "user" "hi"].length 0 := by
  refine ⟨rfl, ?_⟩
  decide

/-- C2 (amended to bounds `N ≥ 1`): `trim_short_history H N` is the suffix of
the most recent `N` entries of `H` in their original relative order (all of
`H` when `len(H) ≤ N`), and its length is `min (len H) N`. -/
theorem trim_short_history_spec (H : List Msg) (N : Nat) (hN : 1 ≤ N) :
    trim_short_history H N = H.drop (H.length - N) ∧
    (trim_short_history H N).length = min H.length N := by
  unfold trim_short_history pyTail
  by_cases h : H.length ≤ N
  · have h0 : H.length - N = 0 := by omega
    rw [if_pos h, h0, List.drop_zero]
    exact ⟨rfl, by omega⟩
  · have hN0 : ¬ (N = 0) := by omega
    rw [if_neg h, if_neg hN0]
    refine ⟨rfl, ?_⟩
    rw [List.length_drop]
    omega

theorem trim_short_history_spec_witness :
    1 ≤ 1 ∧
    (trim_short_history [Msg.mk "user" "a", Msg.mk "assistant" "b"] 1 =
        [Msg.mk "user" "a", Msg.mk "assistant" "b"].drop
          ([Msg.mk "user" "a", Msg.mk "assistant" "b"].length - 1) ∧
      (trim_short_history [Msg.mk "user" "a", Msg.mk "assistant" "b"] 1).length =
        min [Msg.mk "user" "a", Msg.mk "assistant" "b"].length 1) :=
  ⟨by decide, trim_short_history_spec [Msg.mk "user" "a", Msg.mk "assistant" "b"] 1 (by decide)⟩

/-- C3: `handle_user_turn` never raises — it always returns `Except.ok` —
and when the completion call raises it returns exactly the fixed non-empty
apology string. -/
theorem handle_user_turn_never_raises (env : TurnEnv) (tid uid ut : String)
    (hist : List Msg) :
    (∃ s, handle_user_turn env tid uid ut hist = Except.ok s) ∧
    apologyText ≠ "" ∧
    (∀ e : Exn, (∀ ms, env.completion ms = Except.error e) →
      handle_user_turn env tid uid ut hist = Except.ok apologyText) := by
  refine ⟨⟨_, handle_user_turn_eq env tid uid ut hist⟩, by decide, ?_⟩
  intro e hc
  rw [handle_user_turn_eq, hc]

theorem handle_user_turn_never_raises_witness :
    handle_user_turn envFail "tid" "uid" "hello" [] = Except.ok apologyText :=
  (handle_user_turn_never_raises envFail "tid" "uid" "hello" []).2.2 "boom" (fun _ => rfl)

/-- C5: the turn assembles the prompt as the fixed system instruction, then
the memory context as a second system message exactly when the context block
is non-empty, then the caller's short history in order, then the new user
message; with empty context and empty history that is exactly two messages,
and `handle_user_turn` passes exactly this list to the completion call. -/
theorem assemble_order (env : TurnEnv) (tid uid ut : String) (hist : List Msg)
    (cb : String) :
    assemble cb hist ut =
      build_system_prompt ::
        ((if cb = "" then [] else [Msg.mk "system" ("[ZEP MEMORY]\n" ++ cb)]) ++
          (hist ++ [Msg.mk "user" ut])) ∧
    assemble "" [] ut = [build_system_prompt, Msg.mk "user" ut] ∧
    handle_user_turn env tid uid ut hist =
      Except.ok (match env.completion (assemble (turnContext env) hist ut) with
        | Except.ok s => s
        | Except.error _ => apologyText) := by
  refine ⟨?_, rfl, handle_user_turn_eq env tid uid ut hist⟩
  unfold assemble
  by_cases hcb : cb = "" <;> by_cases hh : hist = [] <;> simp [hcb, hh]

/-- C6: with an empty session id, `stable_thread_id` is the user id, a dash,
and the first 8 hex characters of the SHA1 digest of the user id (a fixed
value of a pure function, hence the same on repeated calls); any non-empty
session id is returned verbatim, whatever the user id. -/
theorem stable_thread_id_spec (sha1hex : String → String) (uid : String) :
    stable_thread_id sha1hex uid "" = uid ++ "-" ++ (sha1hex uid).take 8 ∧
    (∀ sid : String, sid ≠ "" → stable_thread_id sha1hex uid sid = sid) := by
  refine ⟨rfl, ?_⟩
  intro sid h
  unfold stable_thread_id
  rw [if_pos h]

theorem stable_thread_id_spec_witness :
    stable_thread_id sha1hexConst "alice" "sess-42" = "sess-42" :=
  (stable_thread_id_spec sha1hexConst "alice").2 "sess-42" (by decide)

/-- C7: `get_zep_context` returns `Except.ok ""` when the service handle is
absent or the fetch raises, never raises for any inputs, and a turn whose
context fetch raises behaves exactly as a turn with an empty context
block. -/
theorem get_zep_context_error_handling (raw : Except Exn (Option String)) :
    get_zep_context false raw = Except.ok "" ∧
    (∀ e : Exn, raw = Except.error e → get_zep_context true raw = Except.ok "") ∧
    (∀ b, ∃ s, get_zep_context b raw = Except.ok s) ∧
    (∀ (env : TurnEnv) (tid uid ut : String) (hist : List Msg) (e : Exn),
      env.rawContext = Except.error e →
      handle_user_turn env tid uid ut hist =
        handle_user_turn { env with rawContext := Except.ok (some "") } tid uid ut hist) := by
  refine ⟨rfl, ?_, ?_, ?_⟩
  · intro e he
    subst he
    rfl
  · intro b
    cases b <;> cases raw <;> exact ⟨_, rfl⟩
  · intro env tid uid ut hist e he
    obtain ⟨zp, zm, am, rc, comp, sch⟩ := env
    simp only at he
    subst he
    rw [handle_user_turn_eq, handle_user_turn_eq]
    cases zp <;> rfl

theorem get_zep_context_error_handling_witness :
    get_zep_context true (Except.error "bad") = Except.ok "" :=
  (get_zep_context_error_handling (Except.error "bad")).2.1 "bad" rfl

/-- C8: a scheduled task is in the live-task set, the done callback removes
it (whatever the outcome: the wrapped coroutine always finishes normally,
exceptions being swallowed), and after scheduling distinct fresh tasks and
completing all of them, in any order, the set is back to its initial
value. -/
theorem bg_tasks_lifecycle (s : TaskSet) (ts : List Nat) (_hnd : ts.Nodup)
    (hfresh : ∀ t ∈ ts, t ∉ s) (order : List Nat) (hperm : order.Perm ts) :
    (∀ t : Nat, t ∈ scheduleTask s t) ∧
    (∀ (s' : TaskSet) (t : Nat), t ∉ completeTask s' t) ∧
    (∀ w, bgResult w = Except.ok ()) ∧
    List.foldl completeTask (List.foldl scheduleTask s ts) order = s := by
  refine ⟨fun t => Finset.mem_insert_self t s, fun s' t => Finset.not_mem_erase t s',
    fun w => by cases w <;> rfl, ?_⟩
  rw [foldl_scheduleTask, foldl_completeTask, List.toFinset_eq_of_perm _ _ hperm]
  ext x
  simp only [Finset.mem_sdiff, Finset.mem_union]
  constructor
  · rintro ⟨hx | hx, hn⟩
    · exact hx
    · exact absurd hx hn
  · intro hs
    exact ⟨Or.inl hs, fun hm => hfresh x (List.mem_toFinset.mp hm) hs⟩

theorem bg_tasks_lifecycle_witness :
    ([0, 1] : List Nat).Nodup ∧
    List.foldl completeTask (List.foldl scheduleTask ({7} : TaskSet) [0, 1]) [1, 0] =
      ({7} : TaskSet) :=
  ⟨by decide,
    (bg_tasks_lifecycle {7} [0, 1] (by decide) (by decide) [1, 0] (by decide)).2.2.2⟩

/-- C9: neither the trim step nor the turn's message assembly writes to the
caller's short-history object (or to any pre-existing object): trimming
returns the same object or a freshly allocated slice, and the assembly only
appends to a freshly allocated `messages` object while reading the history;
the values produced agree with the pure `trim_short_history` and
`assemble`. -/
theorem short_history_frame (σ : Store) (r : Ref) (hr : r < σ.length)
    (n : Nat) (cb ut : String) :
    readRef (trimRef σ r n).1 r = readRef σ r ∧
    readRef (assembleRef σ cb r ut).1 r = readRef σ r ∧
    (∀ r', r' < σ.length → readRef (assembleRef σ cb r ut).1 r' = readRef σ r') ∧
    readRef (trimRef σ r n).1 (trimRef σ r n).2 = trim_short_history (readRef σ r) n ∧
    readRef (assembleRef σ cb r ut).1 (assembleRef σ cb r ut).2 =
      assemble cb (readRef σ r) ut := by
  obtain ⟨hst, hrm⟩ := assembleRef_eq σ cb r ut hr
  have hframe : ∀ r', r' < σ.length →
      readRef (assembleRef σ cb r ut).1 r' = readRef σ r' := by
    intro r' hr'
    rw [hst, readRef_append _ _ _ hr']
  have htrim : readRef (trimRef σ r n).1 r = readRef σ r := by
    unfold trimRef
    by_cases h : (readRef σ r).length ≤ n
    · rw [if_pos h]
    · rw [if_neg h]
      exact readRef_append _ _ _ hr
  refine ⟨htrim, hframe r hr, hframe, ?_, ?_⟩
  · unfold trimRef trim_short_history
    by_cases h : (readRef σ r).length ≤ n
    · rw [if_pos h, if_pos h]
    · rw [if_neg h, if_neg h]
      exact readRef_alloc σ _
  · rw [hst, hrm, readRef_alloc]

theorem short_history_frame_witness :
    0 < ([[Msg.mk "user" "hi"]] : Store).length ∧
    (readRef (trimRef [[Msg.mk "user" "hi"]] 0 6).1 0 =
        readRef [[Msg.mk "user" "hi"]] 0 ∧
      readRef (assembleRef [[Msg.mk "user" "hi"]] "" 0 "yo").1 0 =
        readRef [[Msg.mk "user" "hi"]] 0 ∧
      readRef (trimRef [[Msg.mk "user" "hi"]] 0 6).1
          (trimRef [[Msg.mk "user" "hi"]] 0 6).2 =
        trim_short_history (readRef [[Msg.mk "user" "hi"]] 0) 6 ∧
      readRef (assembleRef [[Msg.mk "user" "hi"]] "" 0 "yo").1
          (assembleRef [[Msg.mk "user" "hi"]] "" 0 "yo").2 =
        assemble "" (readRef [[Msg.mk "user" "hi"]] 0) "yo") := by
  have h := short_history_frame [[Msg.mk "user" "hi"]] 0 (by decide) 6 "" "yo"
  exact ⟨by decide, h.1, h.2.1, h.2.2.2.1, h.2.2.2.2⟩

/-- C4 counterexample: with `max_words = 0` (a case where
`overlap ≥ max_words`) and the one-word text `"a"`, the loop iteration at
start index `0` neither exits the loop nor advances the index, and the loop
does not finish even within `word_count + 1` iterations, though the claimed
bound is `ceil(1 / max(1, 0 - 0)) = 1`. -/
theorem chunk_loop_no_progress_cex :
    chunkStepIndex 1 0 0 0 = some 0 ∧ chunk_text_simple "a" 0 0 = none :=
  ⟨rfl, rfl⟩

/-- C4 (amended to `max_words ≥ 1`): every loop iteration that neither exits
nor breaks strictly increases the start index, and the loop finishes within
`ceil(word_count / max(1, max_words - overlap))` iterations, also when
`overlap ≥ max_words`. -/
theorem chunk_loop_progress_and_termination (text : String) (mw ov : Nat)
    (hmw : 1 ≤ mw) :
    (∀ i j, chunkStepIndex (pySplit text).length mw ov i = some j → i < j) ∧
    (chunkLoop (pySplit text) mw ov
        (ceilDiv (pySplit text).length (max 1 (mw - ov))) 0).isSome :=
  ⟨fun i j h => chunkStepIndex_progress _ mw ov hmw i j h,
    chunkLoop_iter_bound _ mw ov hmw⟩

theorem chunk_loop_progress_and_termination_witness :
    1 ≤ 2 ∧
    (chunkLoop (pySplit "a b c") 2 5
        (ceilDiv (pySplit "a b c").length (max 1 (2 - 5))) 0).isSome :=
  ⟨by decide, (chunk_loop_progress_and_termination "a b c" 2 5 (by decide)).2⟩

/-- C10: the output of `chunk_text_simple` is independent of the overlap
parameter; for `max_words ≥ 1` the produced chunks are the consecutive
disjoint windows of `max_words` words (the last possibly shorter and none
empty), and the windows concatenate back to the whitespace-tokenized word
sequence of the input. -/
theorem chunk_text_simple_overlap_irrelevant (text : String) (mw o1 o2 : Nat)
    (hmw : 1 ≤ mw) :
    chunk_text_simple text mw o1 = chunk_text_simple text mw o2 ∧
    chunk_text_simple text mw o1 =
      some ((splitChunks (mw - 1) (pySplit text)).map (fun c => " ".intercalate c)) ∧
    (splitChunks (mw - 1) (pySplit text)).flatten = pySplit text ∧
    (∀ c ∈ (splitChunks (mw - 1) (pySplit text)).dropLast, c.length = mw) ∧
    (∀ c ∈ splitChunks (mw - 1) (pySplit text), c.length ≤ mw ∧ c ≠ []) := by
  have h1 := chunk_text_simple_eq text mw o1 hmw
  have h2 := chunk_text_simple_eq text mw o2 hmw
  refine ⟨h1.trans h2.symm, h1, splitChunks_join _ _, ?_, ?_⟩
  · intro c hc
    have := splitChunks_dropLast (mw - 1) (pySplit text) c hc
    omega
  · intro c hc
    have := splitChunks_mem (mw - 1) (pySplit text) c hc
    exact ⟨by omega, this.2⟩

theorem chunk_text_simple_overlap_irrelevant_witness :
    1 ≤ 2 ∧ chunk_text_simple "a b c d e" 2 0 = chunk_text_simple "a b c d e" 2 7 :=
  ⟨by decide, (chunk_text_simple_overlap_irrelevant "a b c d e" 2 0 7 (by decide)).1⟩

end ZepAgent
